import Mathlib

/-!
Shallow embedding of the SCIM filter parser
(`src/sentry/scim/endpoints/utils.py`, `parse_filter_conditions`) and of the
branch-name substitution helper (`src/sentry/git_helpers.py`,
`parse_branch_format`).  Strings are modelled as `List Char`; Python string
operations (`split`, `strip`, slicing, `replace`, `int`) are embedded as
executable Lean functions below, restricted to the ASCII behaviour the code
relies on.
-/

namespace Sentry

/-- The characters removed by Python `str.strip()` with no argument
(ASCII whitespace set). -/
def pySpace (c : Char) : Bool :=
  c = ' ' || c = '\t' || c = '\n' || c = '\r' || c = '\x0b' || c = '\x0c'

/-- Python `s.strip()`: drop leading and trailing whitespace. -/
def pyStrip (l : List Char) : List Char :=
  ((l.dropWhile pySpace).reverse.dropWhile pySpace).reverse

/-- Python `s[1:-1]`: drop the first and last character unconditionally;
strings of length `< 2` collapse to the empty string. -/
def stripQuotes (l : List Char) : List Char :=
  (l.drop 1).dropLast

/-- Python `raw_filters.split(",")`: split on each comma; the number of
parts is one more than the number of commas. -/
def splitComma : List Char → List (List Char)
  | [] => [[]]
  | c :: rest =>
    let r := splitComma rest
    if c = ',' then [] :: r
    else (c :: r.headD []) :: r.tail

/-- Python `s.split(sep)` for a non-empty separator, fuelled so that it is
structurally recursive: scan left to right, cutting at each non-overlapping
occurrence of `sep`.  `fuel` must be at least the length of the input; the
wrapper `splitSeq` supplies it. -/
def splitSeqF (sep : List Char) : Nat → List Char → List (List Char)
  | _, [] => [[]]
  | 0, l => [l]
  | fuel + 1, c :: rest =>
    if sep.isPrefixOf (c :: rest) then
      [] :: splitSeqF sep fuel (rest.drop (sep.length - 1))
    else
      let r := splitSeqF sep fuel rest
      (c :: r.headD []) :: r.tail

/-- Python `s.split(sep)` for a non-empty `sep`. -/
def splitSeq (sep l : List Char) : List (List Char) :=
  splitSeqF sep l.length l

/-- The literal separator `" eq "` used by `condition.split(" eq ")`. -/
def eqSep : List Char := " eq ".data

/-- Digit run of Python `int(s)` after the optional sign: ASCII digits with
single underscores allowed only between digits.  `lastU` records whether the
previous character was an underscore (initially `true`, so a leading
underscore or an empty run is rejected). -/
def pyIntDigits : List Char → Nat → Bool → Option Nat
  | [], acc, lastU => if lastU then none else some acc
  | c :: rest, acc, lastU =>
    if c.isDigit then pyIntDigits rest (acc * 10 + (c.toNat - 48)) false
    else if c = '_' then
      if lastU then none else pyIntDigits rest acc true
    else none

/-- Python `int(s)` on ASCII input: strip whitespace, optional `+`/`-` sign,
then a non-empty digit run; `none` models the `ValueError` raised on
malformed input. -/
def pyInt (s : List Char) : Option Int :=
  match pyStrip s with
  | '+' :: rest => (pyIntDigits rest 0 true).map Int.ofNat
  | '-' :: rest => (pyIntDigits rest 0 true).map (fun n => -(n : Int))
  | rest => (pyIntDigits rest 0 true).map Int.ofNat

/-- `ACCEPTED_FILTERED_KEYS = ["userName", "value", "displayName"]`. -/
def ACCEPTED_FILTERED_KEYS : List (List Char) :=
  ["userName".data, "value".data, "displayName".data]

/-- The two error kinds the parser can surface: `SCIMFilterError` (the
syntax error, a `ValueError` subclass raised explicitly) and the plain
`ValueError` propagating out of `int(value)`. -/
inductive FilterError where
  | SCIMFilterError : FilterError
  | ValueError : FilterError
deriving DecidableEq, Repr

/-- The parser's successful results: the empty list returned for an absent
filter, a string value, or an integer value (for the key `value`). -/
inductive FilterResult where
  | empty : FilterResult
  | str : List Char → FilterResult
  | int : Int → FilterResult
deriving DecidableEq, Repr

/-- `parse_filter_conditions(raw_filters)`, line for line:
absent input returns `[]`; split on `","` and reject more than one
condition; split the condition on `" eq "` into exactly two parts; reject
an empty (pre-trim) key or value; strip whitespace from both; strip one
character from each end of the value; reject keys outside
`ACCEPTED_FILTERED_KEYS`; coerce to `int` when the key is `value`. -/
def parse_filter_conditions : Option (List Char) → Except FilterError FilterResult
  | none => .ok .empty
  | some raw_filters =>
    if 1 < (splitComma raw_filters).length then .error .SCIMFilterError
    else
      match splitSeq eqSep ((splitComma raw_filters).headD []) with
      | [key0, value0] =>
        if key0 = [] ∨ value0 = [] then .error .SCIMFilterError
        else if pyStrip key0 ∈ ACCEPTED_FILTERED_KEYS then
          if pyStrip key0 = "value".data then
            match pyInt (stripQuotes (pyStrip value0)) with
            | some n => .ok (.int n)
            | none => .error .ValueError
          else .ok (.str (stripQuotes (pyStrip value0)))
        else .error .SCIMFilterError
      | _ => .error .SCIMFilterError

/-- Python `s.replace(pat, rep)` for a non-empty `pat`, fuelled so that it
is structurally recursive: replace every non-overlapping occurrence, left
to right.  `fuel` must be at least the length of the input. -/
def replaceSeqF (pat rep : List Char) : Nat → List Char → List Char
  | _, [] => []
  | 0, l => l
  | fuel + 1, c :: rest =>
    if pat.isPrefixOf (c :: rest) then
      rep ++ replaceSeqF pat rep fuel (rest.drop (pat.length - 1))
    else c :: replaceSeqF pat rep fuel rest

/-- Python `s.replace(pat, rep)` for a non-empty `pat`. -/
def pyReplace (pat rep l : List Char) : List Char :=
  replaceSeqF pat rep l.length l

/-- `true` when `pat` occurs as a contiguous subsequence of the list. -/
def containsSeq (pat : List Char) : List Char → Bool
  | [] => pat.isEmpty
  | c :: rest => pat.isPrefixOf (c :: rest) || containsSeq pat rest

/-- `group.project.organization` carries the organization slug. -/
structure Organization where
  slug : List Char

/-- `group.project` carries its organization and the project slug. -/
structure Project where
  organization : Organization
  slug : List Char

/-- The fields of a Sentry group read by `parse_branch_format`. -/
structure Group where
  qualified_short_id : List Char
  project : Project

/-- `parse_branch_format(branch_format, group)` from
`src/sentry/git_helpers.py`: substitute `[issueId]`, `[orgSlug]` and
`[projectSlug]` in that order, each via `str.replace` (every occurrence).
The fresh `uuid4().hex[:8]` suffix is nondeterministic in the source and is
therefore taken as the explicit argument `uuid`. -/
def parse_branch_format (branch_format : List Char) (group : Group)
    (uuid : List Char) : List Char :=
  pyReplace "[projectSlug]".data group.project.slug
    (pyReplace "[orgSlug]".data group.project.organization.slug
      (pyReplace "[issueId]".data
        (group.qualified_short_id ++ ('-' :: uuid)) branch_format))

/- ### Helper lemmas about the embedded string operations -/

theorem splitComma_ne_nil (l : List Char) : splitComma l ≠ [] := by
  cases l with
  | nil => simp [splitComma]
  | cons c rest =>
    simp only [splitComma]
    split <;> simp

theorem splitComma_no_comma (l : List Char) (h : ',' ∉ l) :
    splitComma l = [l] := by
  induction l with
  | nil => rfl
  | cons c rest ih =>
    have hc : c ≠ ',' := fun hc => h (hc ▸ List.mem_cons_self c rest)
    have hr : ',' ∉ rest := fun hm => h (List.mem_cons_of_mem c hm)
    simp only [splitComma, ih hr, if_neg hc, List.headD_cons, List.tail_cons]

theorem splitComma_length_of_comma (l : List Char) (h : ',' ∈ l) :
    1 < (splitComma l).length := by
  induction l with
  | nil => cases h
  | cons c rest ih =>
    simp only [splitComma]
    by_cases hc : c = ','
    · simp only [if_pos hc, List.length_cons]
      have := splitComma_ne_nil rest
      have : 0 < (splitComma rest).length := List.length_pos.mpr this
      omega
    · have hm : ',' ∈ rest := by
        rcases List.mem_cons.mp h with h1 | h2
        · exact absurd h1.symm hc
        · exact h2
      have h2 := ih hm
      simp only [if_neg hc, List.length_cons]
      have hne := splitComma_ne_nil rest
      rcases hx : splitComma rest with _ | ⟨p, ps⟩
      · exact absurd hx hne
      · rw [hx] at h2
        simp only [List.length_cons] at h2
        simp only [List.tail_cons]
        omega

theorem replaceSeqF_not_contains (pat rep : List Char) :
    ∀ (fuel : Nat) (l : List Char), l.length ≤ fuel →
      containsSeq pat l = false → replaceSeqF pat rep fuel l = l := by
  intro fuel
  induction fuel with
  | zero =>
    intro l hlen _
    have : l = [] := List.eq_nil_of_length_eq_zero (Nat.le_zero.mp hlen)
    subst this; rfl
  | succ n ih =>
    intro l hlen hc
    cases l with
    | nil => rfl
    | cons c rest =>
      simp only [containsSeq, Bool.or_eq_false_iff] at hc
      obtain ⟨hp, hrest⟩ := hc
      simp only [replaceSeqF, hp, Bool.false_eq_true, if_neg, reduceIte]
      have hlen' : rest.length ≤ n := by
        simp only [List.length_cons] at hlen; omega
      rw [ih rest hlen' hrest]

theorem pyReplace_not_contains (pat rep l : List Char)
    (h : containsSeq pat l = false) : pyReplace pat rep l = l :=
  replaceSeqF_not_contains pat rep l.length l (Nat.le_refl _) h

end Sentry

namespace Sentry

/- ### Claim theorems -/

/-- C8: an absent (`None`) filter makes `parse_filter_conditions` return the
empty result immediately, with no error. -/
theorem filter_none_returns_empty :
    parse_filter_conditions none = .ok .empty := rfl

/-- C4: every input containing at least one comma splits into more than one
segment, and `parse_filter_conditions` fails with the filter syntax error
rather than combining or selecting among the conditions. -/
theorem filter_comma_rejected :
    ∀ s : List Char, ',' ∈ s →
      parse_filter_conditions (some s) = .error .SCIMFilterError := by
  intro s h
  have h1 := splitComma_length_of_comma s h
  simp only [parse_filter_conditions, if_pos h1]

theorem filter_comma_rejected_witness :
    parse_filter_conditions (some "displayName eq \"A\",\"B\"".data) =
      .error .SCIMFilterError :=
  filter_comma_rejected _ (by decide)

/-- C5: every comma-free input that does not split on the literal token
`" eq "` into exactly two parts (no occurrence, or more than one) makes
`parse_filter_conditions` fail with the filter syntax error. -/
theorem filter_eq_split_rejected :
    ∀ s : List Char, ',' ∉ s → (splitSeq eqSep s).length ≠ 2 →
      parse_filter_conditions (some s) = .error .SCIMFilterError := by
  intro s hc hlen
  have h1 := splitComma_no_comma s hc
  simp only [parse_filter_conditions, h1, List.headD_cons]
  rw [if_neg (by simp)]
  rcases hx : splitSeq eqSep s with _ | ⟨a, _ | ⟨b, _ | ⟨c, t⟩⟩⟩
  · rfl
  · rfl
  · rw [hx] at hlen; simp at hlen
  · rfl

theorem filter_eq_split_rejected_witness :
    parse_filter_conditions (some "hello".data) = .error .SCIMFilterError :=
  filter_eq_split_rejected "hello".data (by decide) (by decide)

/-- C6: for every comma-free input that splits on `" eq "` into a key part
and a value part, if the whitespace-trimmed key is not in
`ACCEPTED_FILTERED_KEYS` then `parse_filter_conditions` fails with the
filter syntax error; the membership test in the definition uses the trimmed
key and sits after the trimming and quote-stripping of the value. -/
theorem filter_key_allowlist_rejected :
    ∀ s k v : List Char, ',' ∉ s → splitSeq eqSep s = [k, v] →
      pyStrip k ∉ ACCEPTED_FILTERED_KEYS →
      parse_filter_conditions (some s) = .error .SCIMFilterError := by
  intro s k v hc hsplit hmem
  have h1 := splitComma_no_comma s hc
  simp only [parse_filter_conditions, h1, List.headD_cons, hsplit]
  rw [if_neg (by simp)]
  by_cases hkv : k = [] ∨ v = []
  · rw [if_pos hkv]
  · rw [if_neg hkv, if_neg hmem]

theorem filter_key_allowlist_rejected_witness :
    parse_filter_conditions (some "foo eq \"bar\"".data) =
      .error .SCIMFilterError :=
  filter_key_allowlist_rejected "foo eq \"bar\"".data "foo".data
    "\"bar\"".data (by decide) (by decide) (by decide)

/-- C1 (counterexample): on `userName eq  ` (the value part is a single
space, hence empty after trimming) the parser does NOT fail: it
returns the empty string.  The emptiness test in the source runs before
`strip()`, so a whitespace-only value part passes it. -/
theorem filter_whitespace_value_accepted :
    parse_filter_conditions (some "userName eq  ".data) =
      .ok (.str []) := rfl

/-- C1 (amended): after the split on `" eq "`, a key or value part that is
empty before trimming is rejected with the filter syntax error, and so is a
key that is empty after trimming (it cannot be in the allow-list); only a
whitespace-only value part escapes this rejection. -/
theorem filter_empty_parts_rejected :
    ∀ s k v : List Char, ',' ∉ s → splitSeq eqSep s = [k, v] →
      (k = [] ∨ v = [] ∨ pyStrip k = []) →
      parse_filter_conditions (some s) = .error .SCIMFilterError := by
  intro s k v hc hsplit hkv
  have h1 := splitComma_no_comma s hc
  simp only [parse_filter_conditions, h1, List.headD_cons, hsplit]
  rw [if_neg (by simp)]
  rcases hkv with hk | hv | hks
  · rw [if_pos (Or.inl hk)]
  · rw [if_pos (Or.inr hv)]
  · by_cases hkv2 : k = [] ∨ v = []
    · rw [if_pos hkv2]
    · rw [if_neg hkv2, if_neg (by rw [hks]; decide)]

theorem filter_empty_parts_rejected_witness :
    parse_filter_conditions (some "  eq x".data) = .error .SCIMFilterError :=
  filter_empty_parts_rejected "  eq x".data [' '] ['x']
    (by decide) (by decide) (by decide)

/-- C2 (counterexample): the input `value eq "1,2"` has a quote-stripped
payload (`1,2`) that is not a valid base-10 integer, yet the parser fails
with the filter syntax error (the comma check fires first), not with the
numeric conversion error. -/
theorem filter_value_comma_payload_syntax_error :
    parse_filter_conditions (some "value eq \"1,2\"".data) =
        .error .SCIMFilterError ∧
      pyInt (stripQuotes (pyStrip "\"1,2\"".data)) = none := ⟨rfl, rfl⟩

/-- C2 (amended): for every non-empty payload `p` such that
`value eq p` is comma-free and splits on `" eq "` into exactly
`value` and `p`, if the quote-stripped trimmed payload is not a valid
base-10 integer then the parser fails with the numeric conversion error
(`ValueError`), which is a distinct kind from the filter syntax error. -/
theorem filter_value_key_numeric_error :
    (∀ p : List Char, p ≠ [] → ',' ∉ ("value eq ".data ++ p) →
        splitSeq eqSep ("value eq ".data ++ p) = ["value".data, p] →
        pyInt (stripQuotes (pyStrip p)) = none →
        parse_filter_conditions (some ("value eq ".data ++ p)) =
          .error .ValueError) ∧
      FilterError.ValueError ≠ FilterError.SCIMFilterError := by
  constructor
  · intro p hp hc hsplit hint
    have h1 := splitComma_no_comma _ hc
    simp only [parse_filter_conditions, h1, List.headD_cons, hsplit]
    rw [if_neg (by simp)]
    rw [if_neg (by push_neg; exact ⟨by decide, hp⟩)]
    rw [if_pos (by decide), if_pos (by decide), hint]
  · decide

theorem filter_value_key_numeric_error_witness :
    parse_filter_conditions (some ("value eq ".data ++ "\"abc\"".data)) =
      .error .ValueError :=
  filter_value_key_numeric_error.1 "\"abc\"".data
    (by decide) (by decide) (by decide) (by decide)

/-- C3: the quote-stripping step removes exactly one leading and one
trailing character whatever they are, a value of length `< 2` collapses to
the empty string, and at parser level the unquoted one-character value in
`userName eq x` comes back fully consumed. -/
theorem filter_quote_stripping_unconditional :
    (∀ (a : Char) (m : List Char) (b : Char),
        stripQuotes (a :: (m ++ [b])) = m) ∧
      (∀ v : List Char, v.length < 2 → stripQuotes v = []) ∧
      parse_filter_conditions (some "userName eq x".data) = .ok (.str []) := by
  refine ⟨?_, ?_, rfl⟩
  · intro a m b
    simp [stripQuotes]
  · intro v hv
    rcases v with _ | ⟨c, _ | ⟨d, t⟩⟩
    · rfl
    · rfl
    · simp only [List.length_cons] at hv; omega

theorem filter_quote_stripping_unconditional_witness :
    stripQuotes ['x'] = [] :=
  filter_quote_stripping_unconditional.2.1 ['x'] (by decide)

/-- C7: `userName eq "test.user@okta.local"` parses to the string
`test.user@okta.local` (quotes stripped, no integer coercion) and
`value eq "5"` parses to the integer `5`. -/
theorem filter_concrete_examples :
    parse_filter_conditions (some "userName eq \"test.user@okta.local\"".data) =
        .ok (.str "test.user@okta.local".data) ∧
      parse_filter_conditions (some "value eq \"5\"".data) = .ok (.int 5) :=
  ⟨rfl, rfl⟩

/-- C9: `parse_filter_conditions` is a pure function of its argument in
this embedding (the source reads only its argument and module-level
constants and mutates nothing): two invocations on the same input always
produce the same outcome, value or error kind alike. -/
theorem filter_parser_deterministic :
    ∀ (s : Option (List Char)) (r₁ r₂ : Except FilterError FilterResult),
      parse_filter_conditions s = r₁ → parse_filter_conditions s = r₂ →
      r₁ = r₂ := by
  intro s r₁ r₂ h1 h2
  rw [← h1, ← h2]

theorem filter_parser_deterministic_witness :
    (Except.ok FilterResult.empty : Except FilterError FilterResult) =
      Except.ok FilterResult.empty :=
  filter_parser_deterministic none _ _ rfl rfl

/- ### Characterization of `str.replace`: every occurrence substituted,
surrounding text preserved.  `splitSeq pat l` is the list of maximal
`pat`-free chunks of `l` between the (leftmost, non-overlapping)
occurrences of `pat`; the lemmas below show that `l` is the chunks
interleaved with `pat`, that no chunk contains `pat`, and that
`pyReplace pat rep l` is the same chunks interleaved with `rep`. -/

theorem containsSeq_nil (pat : List Char) (hpat : pat ≠ []) :
    containsSeq pat [] = false := by
  cases pat with
  | nil => exact absurd rfl hpat
  | cons a t => simp [containsSeq, List.isEmpty]

theorem intercalate_nil_cons (sep : List Char) (r : List (List Char))
    (h : r ≠ []) :
    List.intercalate sep ([] :: r) = sep ++ List.intercalate sep r := by
  cases r with
  | nil => exact absurd rfl h
  | cons q qs => simp [List.intercalate, List.intersperse]

theorem intercalate_cons_cons (sep : List Char) (c : Char) (p : List Char)
    (ps : List (List Char)) :
    List.intercalate sep ((c :: p) :: ps) =
      c :: List.intercalate sep (p :: ps) := by
  cases ps with
  | nil => simp [List.intercalate, List.intersperse]
  | cons q qs => simp [List.intercalate, List.intersperse]

theorem splitSeqF_ne_nil (pat : List Char) (fuel : Nat) (l : List Char) :
    splitSeqF pat fuel l ≠ [] := by
  cases fuel with
  | zero => cases l <;> simp [splitSeqF]
  | succ n =>
    cases l with
    | nil => simp [splitSeqF]
    | cons c rest =>
      simp only [splitSeqF]
      split <;> simp

theorem splitSeqF_headD_prefix (pat : List Char) :
    ∀ (fuel : Nat) (l : List Char), (splitSeqF pat fuel l).headD [] <+: l := by
  intro fuel
  induction fuel with
  | zero =>
    intro l
    cases l <;> simp [splitSeqF]
  | succ n ih =>
    intro l
    cases l with
    | nil => simp [splitSeqF]
    | cons c rest =>
      simp only [splitSeqF]
      split
      · simp
      · rcases hr : splitSeqF pat n rest with _ | ⟨p, ps⟩
        · exact absurd hr (splitSeqF_ne_nil pat n rest)
        · have hp := ih rest
          rw [hr] at hp
          simp only [List.headD_cons, List.tail_cons] at hp ⊢
          exact List.cons_prefix_cons.mpr ⟨rfl, hp⟩

theorem intercalate_splitSeqF (pat : List Char) (hpat : pat ≠ []) :
    ∀ (fuel : Nat) (l : List Char), l.length ≤ fuel →
      List.intercalate pat (splitSeqF pat fuel l) = l := by
  obtain ⟨p0, pt, rfl⟩ : ∃ p0 pt, pat = p0 :: pt := by
    cases pat with
    | nil => exact absurd rfl hpat
    | cons a t => exact ⟨a, t, rfl⟩
  intro fuel
  induction fuel with
  | zero =>
    intro l hl
    have : l = [] := List.eq_nil_of_length_eq_zero (Nat.le_zero.mp hl)
    subst this
    simp [splitSeqF, List.intercalate, List.intersperse]
  | succ n ih =>
    intro l hl
    cases l with
    | nil => simp [splitSeqF, List.intercalate, List.intersperse]
    | cons c rest =>
      simp only [List.length_cons] at hl
      simp only [splitSeqF]
      by_cases hpre : (p0 :: pt).isPrefixOf (c :: rest) = true
      · rw [if_pos hpre]
        obtain ⟨t, ht⟩ := List.isPrefixOf_iff_prefix.mp hpre
        rw [List.cons_append] at ht
        injection ht with hc hrest
        have hdrop : rest.drop ((p0 :: pt).length - 1) = t := by
          rw [← hrest, List.length_cons]
          simp
        have htlen : t.length ≤ n := by
          have := congrArg List.length hrest
          simp only [List.length_append] at this
          omega
        rw [hdrop,
          intercalate_nil_cons _ _ (splitSeqF_ne_nil _ _ _), ih t htlen,
          ← hc, ← hrest]
        exact (List.cons_append p0 pt t).symm ▸ rfl
      · rw [if_neg hpre]
        rcases hr : splitSeqF (p0 :: pt) n rest with _ | ⟨p, ps⟩
        · exact absurd hr (splitSeqF_ne_nil _ _ _)
        · simp only [List.headD_cons, List.tail_cons]
          rw [intercalate_cons_cons]
          have hrec := ih rest (by omega)
          rw [hr] at hrec
          rw [hrec]

theorem splitSeqF_not_contains (pat : List Char) (hpat : pat ≠ []) :
    ∀ (fuel : Nat) (l : List Char), l.length ≤ fuel →
      ∀ part ∈ splitSeqF pat fuel l, containsSeq pat part = false := by
  intro fuel
  induction fuel with
  | zero =>
    intro l hl part hpart
    have : l = [] := List.eq_nil_of_length_eq_zero (Nat.le_zero.mp hl)
    subst this
    simp only [splitSeqF, List.mem_singleton] at hpart
    subst hpart
    exact containsSeq_nil pat hpat
  | succ n ih =>
    intro l hl part hpart
    cases l with
    | nil =>
      simp only [splitSeqF, List.mem_singleton] at hpart
      subst hpart
      exact containsSeq_nil pat hpat
    | cons c rest =>
      simp only [List.length_cons] at hl
      have hlen : rest.length ≤ n := by omega
      simp only [splitSeqF] at hpart
      by_cases hpre : pat.isPrefixOf (c :: rest) = true
      · rw [if_pos hpre] at hpart
        rcases List.mem_cons.mp hpart with h1 | h2
        · subst h1
          exact containsSeq_nil pat hpat
        · have hdl : (rest.drop (pat.length - 1)).length ≤ n := by
            rw [List.length_drop]; omega
          exact ih _ hdl part h2
      · rw [if_neg hpre] at hpart
        rcases hr : splitSeqF pat n rest with _ | ⟨p, ps⟩
        · exact absurd hr (splitSeqF_ne_nil pat n rest)
        · rw [hr] at hpart
          simp only [List.headD_cons, List.tail_cons] at hpart
          have hphead : p <+: rest := by
            have := splitSeqF_headD_prefix pat n rest
            rw [hr] at this
            simpa using this
          rcases List.mem_cons.mp hpart with h1 | h2
          · subst h1
            simp only [containsSeq, Bool.or_eq_false_iff]
            refine ⟨?_, ?_⟩
            · by_contra hcp
              have hcp' : pat.isPrefixOf (c :: p) = true := by
                revert hcp
                cases pat.isPrefixOf (c :: p) <;> simp
              have h3 : pat <+: c :: rest :=
                (List.isPrefixOf_iff_prefix.mp hcp').trans
                  (List.cons_prefix_cons.mpr ⟨rfl, hphead⟩)
              exact hpre (List.isPrefixOf_iff_prefix.mpr h3)
            · exact ih rest hlen p (by rw [hr]; exact List.mem_cons_self p ps)
          · exact ih rest hlen part (by rw [hr]; exact List.mem_cons_of_mem p h2)

theorem replaceSeqF_intercalate (pat rep : List Char) :
    ∀ (fuel : Nat) (l : List Char),
      replaceSeqF pat rep fuel l =
        List.intercalate rep (splitSeqF pat fuel l) := by
  intro fuel
  induction fuel with
  | zero =>
    intro l
    cases l <;> simp [replaceSeqF, splitSeqF, List.intercalate, List.intersperse]
  | succ n ih =>
    intro l
    cases l with
    | nil => simp [replaceSeqF, splitSeqF, List.intercalate, List.intersperse]
    | cons c rest =>
      simp only [replaceSeqF, splitSeqF]
      by_cases hpre : pat.isPrefixOf (c :: rest) = true
      · rw [if_pos hpre, if_pos hpre,
          intercalate_nil_cons _ _ (splitSeqF_ne_nil _ _ _), ih]
      · rw [if_neg hpre, if_neg hpre]
        rcases hr : splitSeqF pat n rest with _ | ⟨p, ps⟩
        · exact absurd hr (splitSeqF_ne_nil pat n rest)
        · simp only [List.headD_cons, List.tail_cons]
          rw [intercalate_cons_cons, ih, hr]

/-- C10: `parse_branch_format` substitutes every occurrence of each
placeholder and preserves all text outside the tokens, for every branch
format string.  First conjunct, for every pattern, replacement and input:
the input is exactly its `pat`-free chunks interleaved with the occurrences
of `pat`, no chunk contains `pat` (so the chunks are precisely the text
outside the occurrences), and `pyReplace` returns the same chunks with
every occurrence replaced by `rep`.  Second conjunct: `parse_branch_format`
is, on every format, this every-occurrence substitution applied for
`[issueId]`, `[orgSlug]` and `[projectSlug]` in order.  Third conjunct: a
format containing none of the three tokens is returned unchanged.  Last
conjunct: on a format with two `[issueId]` occurrences, both are
substituted. -/
theorem branch_format_substitution :
    (∀ (pat rep l : List Char), pat ≠ [] →
        List.intercalate pat (splitSeq pat l) = l ∧
        (∀ part ∈ splitSeq pat l, containsSeq pat part = false) ∧
        pyReplace pat rep l = List.intercalate rep (splitSeq pat l)) ∧
      (∀ (fmt : List Char) (g : Group) (u : List Char),
          parse_branch_format fmt g u =
            List.intercalate g.project.slug ((splitSeq "[projectSlug]".data)
              (List.intercalate g.project.organization.slug
                ((splitSeq "[orgSlug]".data)
                  (List.intercalate (g.qualified_short_id ++ '-' :: u)
                    ((splitSeq "[issueId]".data) fmt)))))) ∧
      (∀ (fmt : List Char) (g : Group) (u : List Char),
          containsSeq "[issueId]".data fmt = false →
          containsSeq "[orgSlug]".data fmt = false →
          containsSeq "[projectSlug]".data fmt = false →
          parse_branch_format fmt g u = fmt) ∧
      parse_branch_format "x[issueId]y[issueId]z".data
          ⟨"SENTRY-1".data, ⟨⟨"acme".data⟩, "web".data⟩⟩ "abcd1234".data =
        "xSENTRY-1-abcd1234ySENTRY-1-abcd1234z".data := by
  refine ⟨?_, ?_, ?_, by decide⟩
  · intro pat rep l hpat
    unfold splitSeq pyReplace
    exact ⟨intercalate_splitSeqF pat hpat l.length l (Nat.le_refl _),
      splitSeqF_not_contains pat hpat l.length l (Nat.le_refl _),
      replaceSeqF_intercalate pat rep l.length l⟩
  · intro fmt g u
    unfold parse_branch_format pyReplace splitSeq
    rw [replaceSeqF_intercalate, replaceSeqF_intercalate,
      replaceSeqF_intercalate]
  · intro fmt g u h1 h2 h3
    unfold parse_branch_format
    rw [pyReplace_not_contains _ _ _ h1, pyReplace_not_contains _ _ _ h2,
      pyReplace_not_contains _ _ _ h3]

theorem branch_format_substitution_witness :
    List.intercalate "[issueId]".data
        (splitSeq "[issueId]".data "x[issueId]y".data) = "x[issueId]y".data ∧
      parse_branch_format "plain-branch".data
          ⟨"I1".data, ⟨⟨"org".data⟩, "proj".data⟩⟩ "u".data =
        "plain-branch".data :=
  ⟨(branch_format_substitution.1 "[issueId]".data "Q".data "x[issueId]y".data
      (by decide)).1,
    branch_format_substitution.2.2.1 "plain-branch".data
      ⟨"I1".data, ⟨⟨"org".data⟩, "proj".data⟩⟩ "u".data
      (by decide) (by decide) (by decide)⟩

end Sentry
